import Mathlib

/-!
A shallow embedding of `src/compare_func.py`, an unordered XML structure
comparator, together with proofs about its behaviour.

Modelling conventions:
* An lxml element is modelled by `Element`: a tag, an attribute dictionary
  (association list with unique keys, in document order), an optional text
  payload, and the ordered list of child elements.
* Python's `sorted` on the attribute items compares `(name, value)` pairs
  lexicographically; we model it with `List.insertionSort` over `pairLe`.
* Python dict equality (`element1.attrib != element2.attrib`) is equality of
  the underlying key-to-value mapping; for unique-key association lists this
  coincides with equality of the sorted item lists, which is how `attribEq`
  is defined.
* The two mutable result lists `differences` / `matches` are threaded through
  the recursion as an explicit pair of lists; `list.append(x)` becomes
  `l ++ [x]`.
* Each `f"..."` string appended by the Python code is modelled by a
  constructor of `Rec` carrying exactly the values interpolated into the
  message; distinct message formats map to distinct constructors.
* `set1.keys() | set2.keys()` and `set1.keys() & set2.keys()` are Python set
  views whose iteration order is unspecified; we fix the deterministic order
  "keys of the first group first, then the remaining keys of the second"
  (resp. "keys of the first group that also occur in the second").
-/

set_option linter.unusedVariables false

/-- One XML element as produced by the (out-of-scope) lxml parser:
tag, attribute dictionary, optional text, ordered children. -/
inductive Element where
  | mk (tag : String) (attrib : List (String × String))
       (text : Option String) (children : List Element)

def Element.tag : Element → String
  | .mk t _ _ _ => t

def Element.attrib : Element → List (String × String)
  | .mk _ a _ _ => a

def Element.text : Element → Option String
  | .mk _ _ x _ => x

def Element.children : Element → List Element
  | .mk _ _ _ cs => cs

/-- Strict lexicographic order on character lists by code point, which is how
Python compares `str` values.  (Lean's own `String` order is defined through
the byte-iterator function `String.ltb`, which does not reduce in the kernel,
so we use this structural definition instead.) -/
def strLtB : List Char → List Char → Bool
  | [], [] => false
  | [], _ :: _ => true
  | _ :: _, [] => false
  | a :: as, b :: bs =>
      if a < b then true
      else if b < a then false
      else strLtB as bs

/-- Python's `<` on strings. -/
def strLt (s t : String) : Prop := strLtB s.data t.data = true

/-- Python's `<=` on strings. -/
def strLe (s t : String) : Prop := strLt s t ∨ s = t

theorem strLtB_trans : ∀ {a b c : List Char},
    strLtB a b = true → strLtB b c = true → strLtB a c = true := by
  intro a
  induction a with
  | nil =>
      intro b c hab hbc
      cases b with
      | nil => simp [strLtB] at hab
      | cons y ys =>
          cases c with
          | nil => simp [strLtB] at hbc
          | cons z zs => simp [strLtB]
  | cons x xs ih =>
      intro b c hab hbc
      cases b with
      | nil => simp [strLtB] at hab
      | cons y ys =>
          cases c with
          | nil => simp [strLtB] at hbc
          | cons z zs =>
              simp only [strLtB] at hab hbc ⊢
              rcases lt_trichotomy x y with h1 | h1 | h1
              · rcases lt_trichotomy y z with h2 | h2 | h2
                · simp [lt_trans h1 h2]
                · subst h2; simp [h1]
                · rw [if_neg (lt_asymm h2), if_pos h2] at hbc
                  exact Bool.noConfusion hbc
              · subst h1
                rw [if_neg (lt_irrefl x), if_neg (lt_irrefl x)] at hab
                rcases lt_trichotomy x z with h2 | h2 | h2
                · simp [h2]
                · subst h2
                  rw [if_neg (lt_irrefl x), if_neg (lt_irrefl x)] at hbc ⊢
                  exact ih hab hbc
                · rw [if_neg (lt_asymm h2), if_pos h2] at hbc
                  exact Bool.noConfusion hbc
              · rw [if_neg (lt_asymm h1), if_pos h1] at hab
                exact Bool.noConfusion hab

theorem strLtB_irrefl : ∀ (a : List Char), strLtB a a = false := by
  intro a
  induction a with
  | nil => simp [strLtB]
  | cons x xs ih => simp [strLtB, lt_irrefl, ih]

theorem strLtB_total : ∀ {a b : List Char},
    strLtB a b = false → strLtB b a = false → a = b := by
  intro a
  induction a with
  | nil =>
      intro b hab hba
      cases b with
      | nil => rfl
      | cons y ys => simp [strLtB] at hab
  | cons x xs ih =>
      intro b hab hba
      cases b with
      | nil => simp [strLtB] at hba
      | cons y ys =>
          simp only [strLtB] at hab hba
          rcases lt_trichotomy x y with h1 | h1 | h1
          · simp [h1] at hab
          · subst h1
            simp only [lt_irrefl, if_neg, ite_false, if_false] at hab hba
            rw [ih hab hba]
          · simp [h1, lt_asymm h1] at hba

/-- Lexicographic order on `(attribute-name, attribute-value)` pairs, as used
by Python's `sorted` on 2-tuples of strings. -/
def pairLe (p q : String × String) : Prop :=
  strLt p.1 q.1 ∨ (p.1 = q.1 ∧ strLe p.2 q.2)

instance : DecidableRel strLt := fun s t => by
  unfold strLt; infer_instance

instance : DecidableRel strLe := fun s t => by
  unfold strLe; infer_instance

instance : DecidableRel pairLe := fun p q => by
  unfold pairLe; infer_instance

theorem strLt_trans {s t u : String} (h1 : strLt s t) (h2 : strLt t u) :
    strLt s u := strLtB_trans h1 h2

theorem strLt_asymm {s t : String} (h1 : strLt s t) (h2 : strLt t s) : False := by
  have := strLtB_trans h1 h2
  rw [strLtB_irrefl] at this
  exact Bool.false_ne_true this

theorem strLt_total {s t : String} (h1 : ¬ strLt s t) (h2 : ¬ strLt t s) :
    s = t := by
  obtain ⟨da⟩ := s
  obtain ⟨db⟩ := t
  unfold strLt at h1 h2
  simp only [Bool.not_eq_true] at h1 h2
  exact congrArg String.mk (strLtB_total h1 h2)

instance : IsTotal (String × String) pairLe := by
  constructor
  intro p q
  by_cases h1 : strLt p.1 q.1
  · exact Or.inl (Or.inl h1)
  · by_cases h2 : strLt q.1 p.1
    · exact Or.inr (Or.inl h2)
    · have he : p.1 = q.1 := strLt_total h1 h2
      by_cases h3 : strLt p.2 q.2
      · exact Or.inl (Or.inr ⟨he, Or.inl h3⟩)
      · by_cases h4 : strLt q.2 p.2
        · exact Or.inr (Or.inr ⟨he.symm, Or.inl h4⟩)
        · exact Or.inl (Or.inr ⟨he, Or.inr (strLt_total h3 h4)⟩)

instance : IsTrans (String × String) pairLe := by
  constructor
  intro p q r hpq hqr
  rcases hpq with h1 | ⟨h1, h1v⟩
  · rcases hqr with h2 | ⟨h2, h2v⟩
    · exact Or.inl (strLt_trans h1 h2)
    · exact Or.inl (h2 ▸ h1)
  · rcases hqr with h2 | ⟨h2, h2v⟩
    · exact Or.inl (h1 ▸ h2)
    · refine Or.inr ⟨h1.trans h2, ?_⟩
      rcases h1v with h3 | h3
      · rcases h2v with h4 | h4
        · exact Or.inl (strLt_trans h3 h4)
        · exact Or.inl (h4 ▸ h3)
      · rcases h2v with h4 | h4
        · exact Or.inl (h3 ▸ h4)
        · exact Or.inr (h3.trans h4)

instance : IsAntisymm (String × String) pairLe := by
  constructor
  intro p q hpq hqp
  rcases hpq with h1 | ⟨h1, h1v⟩
  · rcases hqp with h2 | ⟨h2, h2v⟩
    · exact absurd (strLt_trans h1 h2) (fun h => strLt_asymm h1 h2)
    · exact absurd (h2 ▸ h1) (fun h => strLt_asymm h h)
  · rcases hqp with h2 | ⟨h2, h2v⟩
    · exact absurd (h1 ▸ h2) (fun h => strLt_asymm h h)
    · refine Prod.ext h1 ?_
      rcases h1v with h3 | h3
      · rcases h2v with h4 | h4
        · exact absurd h3 (fun h => strLt_asymm h h4)
        · exact h4.symm
      · exact h3

/-- `sorted(element.attrib.items())`. -/
def sortPairs (l : List (String × String)) : List (String × String) :=
  List.insertionSort pairLe l

/-- Python's `str.strip()`: remove leading and trailing whitespace.  (Defined
over the character list so that it computes by kernel reduction;
`String.trim` itself is defined by well-founded recursion on byte
positions and does not.) -/
def stripText (s : String) : String :=
  ⟨((s.data.dropWhile Char.isWhitespace).reverse.dropWhile Char.isWhitespace).reverse⟩

/-- The element signature tuple
`(element.tag, tuple(sorted(element.attrib.items())), (element.text or "").strip())`. -/
structure Sig where
  tag : String
  attrs : List (String × String)
  text : String
deriving DecidableEq, Repr

/-- `element_signature(element)` from the source. -/
def element_signature (e : Element) : Sig :=
  { tag := e.tag
    attrs := sortPairs e.attrib
    text := stripText (e.text.getD "") }

/-- Python dict equality for the attribute dictionaries: two unique-key
association lists denote the same mapping iff their sorted item lists are
equal. -/
def attribEq (a b : List (String × String)) : Prop :=
  sortPairs a = sortPairs b

instance (a b : List (String × String)) : Decidable (attribEq a b) := by
  unfold attribEq; infer_instance

/-- One log record; each constructor corresponds to one `append` site in
`compare_elements_unordered` and carries the values interpolated into the
corresponding f-string. -/
inductive Rec where
  | differentTags (path tag1 tag2 : String)
  | matchingTags (path tag1 : String)
  | differentAttributes (path tag : String)
      (attrib1 attrib2 : List (String × String))
  | matchingAttributes (path tag : String) (attrib1 : List (String × String))
  | missingInSecond (path tag : String) (key : Sig)
  | missingInFirst (path tag : String) (key : Sig)
  | differentCount (key : Sig) (path tag : String) (count1 count2 : Nat)
  | matchingElement (key : Sig) (path tag : String) (count1 : Nat)
deriving DecidableEq, Repr

/-- A sibling group: `defaultdict(list)` keyed by signature, with keys in
first-insertion order and each value list in sibling order. -/
abbrev SigGroup := List (Sig × List Element)

/-- `set[element_signature(child)].append(child)` on a `defaultdict(list)`. -/
def addChild (g : SigGroup) (k : Sig) (c : Element) : SigGroup :=
  match g with
  | [] => [(k, [c])]
  | (k', cs) :: rest =>
      if k' = k then (k', cs ++ [c]) :: rest else (k', cs) :: addChild rest k c

/-- Builds the sibling group of a list of children, in order. -/
def sibGroup (children : List Element) : SigGroup :=
  children.foldl (fun g c => addChild g (element_signature c) c) []

/-- `set.keys()`, in insertion order. -/
def groupKeys (g : SigGroup) : List Sig := g.map Prod.fst

/-- `set[key]` for a key already present (`[]` when absent). -/
def findGroup (k : Sig) : SigGroup → List Element
  | [] => []
  | (k', cs) :: rest => if k' = k then cs else findGroup k rest

/-- `set1.keys() | set2.keys()`, with iteration order fixed as explained in
the header. -/
def unionKeys (g1 g2 : SigGroup) : List Sig :=
  groupKeys g1 ++ (groupKeys g2).filter (fun k => decide (k ∉ groupKeys g1))

/-- `set1.keys() & set2.keys()`, with iteration order fixed as explained in
the header. -/
def interKeys (g1 g2 : SigGroup) : List Sig :=
  (groupKeys g1).filter (fun k => decide (k ∈ groupKeys g2))

/-- The `for key in set1.keys() | set2.keys():` loop of the source (step 5 of
the spec): set-level reconciliation of the two sibling groups. -/
def step5 (path tag : String) (g1 g2 : SigGroup) (dm : List Rec × List Rec) :
    List Rec × List Rec :=
  (unionKeys g1 g2).foldl
    (fun dm k =>
      if k ∉ groupKeys g2 then
        (dm.1 ++ [Rec.missingInSecond path tag k], dm.2)
      else if k ∉ groupKeys g1 then
        (dm.1 ++ [Rec.missingInFirst path tag k], dm.2)
      else
        let count1 := (findGroup k g1).length
        let count2 := (findGroup k g2).length
        if count1 ≠ count2 then
          (dm.1 ++ [Rec.differentCount k path tag count1 count2], dm.2)
        else
          (dm.1, dm.2 ++ [Rec.matchingElement k path tag count1]))
    dm

/-- The list of pairs fed to the recursive calls by the
`for key in set1.keys() & set2.keys(): for child1, child2 in zip(...)`
loops of the source (step 6 of the spec). -/
def recursionPairs (g1 g2 : SigGroup) : List (Element × Element) :=
  (interKeys g1 g2).flatMap (fun k => (findGroup k g1).zip (findGroup k g2))

theorem findGroup_addChild (k k' : Sig) (c : Element) (g : SigGroup) :
    findGroup k (addChild g k' c) =
      findGroup k g ++ (if k' = k then [c] else []) := by
  induction g with
  | nil =>
      by_cases h : k' = k <;> simp [addChild, findGroup, h]
  | cons p rest ih =>
      obtain ⟨k0, cs0⟩ := p
      by_cases h0 : k0 = k'
      · subst h0
        by_cases h1 : k0 = k
        · subst h1
          simp [addChild, findGroup]
        · simp [addChild, findGroup, h1]
      · by_cases h1 : k0 = k
        · subst h1
          have : ¬ k' = k0 := fun h => h0 h.symm
          simp [addChild, findGroup, h0, this]
        · simp [addChild, findGroup, h0, h1, ih]

theorem findGroup_foldl (k : Sig) (cs : List Element) (g : SigGroup) :
    findGroup k (cs.foldl (fun g c => addChild g (element_signature c) c) g) =
      findGroup k g ++ cs.filter (fun c => decide (element_signature c = k)) := by
  induction cs generalizing g with
  | nil => simp
  | cons c cs ih =>
      rw [List.foldl_cons, ih, findGroup_addChild]
      by_cases h : element_signature c = k <;>
        simp [h, List.filter_cons]

/-- The value lists of a sibling group are the signature-filtered sublists of
the original children list. -/
theorem findGroup_sibGroup (k : Sig) (cs : List Element) :
    findGroup k (sibGroup cs) =
      cs.filter (fun c => decide (element_signature c = k)) := by
  rw [sibGroup, findGroup_foldl]; rfl

theorem groupKeys_addChild (g : SigGroup) (k : Sig) (c : Element) :
    groupKeys (addChild g k c) =
      groupKeys g ++ (if k ∈ groupKeys g then [] else [k]) := by
  induction g with
  | nil => simp [addChild, groupKeys]
  | cons p rest ih =>
      obtain ⟨k0, cs0⟩ := p
      by_cases h0 : k0 = k
      · subst h0
        simp [addChild, groupKeys]
      · have hne : ¬ k = k0 := fun h => h0 h.symm
        simp only [addChild, if_neg h0, groupKeys, List.map_cons] at ih ⊢
        rw [ih]
        by_cases hm : k ∈ List.map Prod.fst rest <;>
          simp [hm, hne, List.mem_cons]

theorem mem_groupKeys_foldl (k : Sig) (cs : List Element) (g : SigGroup) :
    k ∈ groupKeys (cs.foldl (fun g c => addChild g (element_signature c) c) g) ↔
      k ∈ groupKeys g ∨ k ∈ cs.map element_signature := by
  induction cs generalizing g with
  | nil => simp
  | cons c cs ih =>
      rw [List.foldl_cons, ih, groupKeys_addChild]
      by_cases h : element_signature c ∈ groupKeys g <;>
        by_cases hk : k = element_signature c <;>
        simp [h, hk]

/-- A signature occurs as a key of the sibling group iff some child has that
signature. -/
theorem mem_groupKeys_sibGroup (k : Sig) (cs : List Element) :
    k ∈ groupKeys (sibGroup cs) ↔ k ∈ cs.map element_signature := by
  rw [sibGroup, mem_groupKeys_foldl]
  simp [groupKeys]

theorem nodup_groupKeys_addChild (g : SigGroup) (k : Sig) (c : Element)
    (h : (groupKeys g).Nodup) : (groupKeys (addChild g k c)).Nodup := by
  rw [groupKeys_addChild]
  by_cases hm : k ∈ groupKeys g
  · simpa [hm] using h
  · simp [hm, List.nodup_append, h]
    try simpa using hm

theorem nodup_groupKeys_foldl (cs : List Element) (g : SigGroup)
    (h : (groupKeys g).Nodup) :
    (groupKeys (cs.foldl (fun g c => addChild g (element_signature c) c) g)).Nodup := by
  induction cs generalizing g with
  | nil => simpa using h
  | cons c cs ih =>
      rw [List.foldl_cons]
      exact ih _ (nodup_groupKeys_addChild _ _ _ h)

/-- The keys of a sibling group are pairwise distinct. -/
theorem nodup_groupKeys_sibGroup (cs : List Element) :
    (groupKeys (sibGroup cs)).Nodup :=
  nodup_groupKeys_foldl cs [] (by simp [groupKeys])

/-- First components of recursion pairs are children of the first element. -/
theorem fst_mem_of_mem_recursionPairs {c1 c2 : Element} {cs : List Element}
    {g2 : SigGroup} (h : (c1, c2) ∈ recursionPairs (sibGroup cs) g2) :
    c1 ∈ cs := by
  rw [recursionPairs, List.mem_flatMap] at h
  obtain ⟨k, hk, hz⟩ := h
  have h1 := (List.of_mem_zip hz).1
  rw [findGroup_sibGroup] at h1
  exact List.mem_of_mem_filter h1

theorem sizeOf_children_lt (e : Element) : sizeOf e.children < sizeOf e := by
  obtain ⟨t, a, x, cs⟩ := e
  simp only [Element.children]
  simp only [Element.mk.sizeOf_spec]
  omega

/-- `compare_elements_unordered(element1, element2, differences, matches, path)`
from the source, with the two mutable lists threaded as a pair. -/
def compare_elements_unordered (e1 e2 : Element)
    (differences matchesLog : List Rec) (path : String) : List Rec × List Rec :=
  if e1.tag ≠ e2.tag then
    (differences ++ [Rec.differentTags path e1.tag e2.tag], matchesLog)
  else
    let matches1 := matchesLog ++ [Rec.matchingTags path e1.tag]
    let dm1 :=
      if ¬ attribEq e1.attrib e2.attrib then
        (differences ++ [Rec.differentAttributes path e1.tag e1.attrib e2.attrib],
         matches1)
      else
        (differences, matches1 ++ [Rec.matchingAttributes path e1.tag e1.attrib])
    let g1 := sibGroup e1.children
    let g2 := sibGroup e2.children
    let dm2 := step5 path e1.tag g1 g2 dm1
    (recursionPairs g1 g2).attach.foldl
      (fun dm q =>
        compare_elements_unordered q.1.1 q.1.2 dm.1 dm.2 (path ++ "/" ++ e1.tag))
      dm2
termination_by sizeOf e1
decreasing_by
  rename_i hq
  have h1 : q.1.1 ∈ e1.children := by
    obtain ⟨⟨c1, c2⟩, hmem⟩ := q
    exact fst_mem_of_mem_recursionPairs hmem
  have h2 : sizeOf q.1.1 < sizeOf e1.children := List.sizeOf_lt_of_mem h1
  have h3 := sizeOf_children_lt e1
  omega

/-- Number of children of signature `k`: `len(set[key])` seen through
`findGroup_sibGroup`. -/
def countOcc (k : Sig) (cs : List Element) : Nat :=
  (cs.filter (fun c => decide (element_signature c = k))).length

/-- Outcome of `compare_xml_files`: parse failure, or the verdict printed
after the traversal. -/
inductive Outcome where
  | parseFailure
  | identical
  | different
deriving DecidableEq, Repr

/-- `compare_xml_files(file1, file2)` from the source, with the two
`parse_with_recovery` results abstracted as `Option Element` inputs (file
I/O and lxml parsing are out of scope).  Returns the printed outcome and the
two logs that are persisted. -/
def compare_xml_files (root1 root2 : Option Element) :
    Outcome × List Rec × List Rec :=
  match root1, root2 with
  | some r1, some r2 =>
      let dm := compare_elements_unordered r1 r2 [] [] "/"
      (if dm.1.isEmpty then Outcome.identical else Outcome.different, dm)
  | _, _ => (Outcome.parseFailure, [], [])

/-- One-step unfolding of `compare_elements_unordered` with the `attach`
used for termination removed. -/
theorem compare_unfold (e1 e2 : Element) (d m : List Rec) (p : String) :
    compare_elements_unordered e1 e2 d m p =
      if e1.tag ≠ e2.tag then
        (d ++ [Rec.differentTags p e1.tag e2.tag], m)
      else
        (recursionPairs (sibGroup e1.children) (sibGroup e2.children)).foldl
          (fun dm q =>
            compare_elements_unordered q.1 q.2 dm.1 dm.2 (p ++ "/" ++ e1.tag))
          (step5 p e1.tag (sibGroup e1.children) (sibGroup e2.children)
            (if ¬ attribEq e1.attrib e2.attrib then
              (d ++ [Rec.differentAttributes p e1.tag e1.attrib e2.attrib],
               m ++ [Rec.matchingTags p e1.tag])
            else
              (d, m ++ [Rec.matchingTags p e1.tag]
                    ++ [Rec.matchingAttributes p e1.tag e1.attrib]))) := by
  rw [compare_elements_unordered]
  by_cases h : e1.tag ≠ e2.tag
  · simp [h]
  · simp only [h, if_neg, ite_false, if_false]
    rw [List.foldl_attach
      (f := fun dm (q : Element × Element) =>
        compare_elements_unordered q.1 q.2 dm.1 dm.2 (p ++ "/" ++ e1.tag))]

/-- A fold whose every step appends a step-determined suffix to each
component factors into the initial state followed by the concatenation of
the suffixes. -/
theorem foldl_pair_append {α : Type} (l : List α)
    (step : (List Rec × List Rec) → α → (List Rec × List Rec))
    (f1 f2 : α → List Rec)
    (h : ∀ x ∈ l, ∀ d m, step (d, m) x = (d ++ f1 x, m ++ f2 x)) :
    ∀ d m, l.foldl step (d, m) =
      (d ++ (l.map f1).flatten, m ++ (l.map f2).flatten) := by
  induction l with
  | nil => intro d m; simp
  | cons x l ih =>
      intro d m
      rw [List.foldl_cons, h x (List.mem_cons_self x l)]
      rw [ih (fun y hy => h y (List.mem_cons_of_mem x hy))]
      simp

/-- A fold whose every step appends at most one record to each component
factors into `filterMap`s over the folded list. -/
theorem foldl_filterMap_factor {α : Type} (ks : List α)
    (step : (List Rec × List Rec) → α → (List Rec × List Rec))
    (f g : α → Option Rec)
    (h : ∀ k ∈ ks, ∀ d m, step (d, m) k = (d ++ (f k).toList, m ++ (g k).toList)) :
    ∀ d m, ks.foldl step (d, m) = (d ++ ks.filterMap f, m ++ ks.filterMap g) := by
  induction ks with
  | nil => intro d m; simp
  | cons k ks ih =>
      intro d m
      rw [List.foldl_cons, h k (List.mem_cons_self k ks)]
      rw [ih (fun y hy => h y (List.mem_cons_of_mem k hy))]
      rcases hf : f k with _ | r <;> rcases hg : g k with _ | r' <;>
        simp [List.filterMap_cons, hf, hg]

/-- The difference record (if any) that the reconciliation loop emits for one
signature key. -/
def reconcileDiff (path tag : String) (g1 g2 : SigGroup) (k : Sig) : Option Rec :=
  if k ∉ groupKeys g2 then some (Rec.missingInSecond path tag k)
  else if k ∉ groupKeys g1 then some (Rec.missingInFirst path tag k)
  else if (findGroup k g1).length ≠ (findGroup k g2).length then
    some (Rec.differentCount k path tag (findGroup k g1).length (findGroup k g2).length)
  else none

/-- The match record (if any) that the reconciliation loop emits for one
signature key. -/
def reconcileMatch (path tag : String) (g1 g2 : SigGroup) (k : Sig) : Option Rec :=
  if k ∉ groupKeys g2 then none
  else if k ∉ groupKeys g1 then none
  else if (findGroup k g1).length ≠ (findGroup k g2).length then none
  else some (Rec.matchingElement k path tag (findGroup k g1).length)

/-- Step 5 emits, for each key of the union in order, exactly the record
given by `reconcileDiff` / `reconcileMatch`. -/
theorem step5_eq (p t : String) (g1 g2 : SigGroup) (d m : List Rec) :
    step5 p t g1 g2 (d, m) =
      (d ++ (unionKeys g1 g2).filterMap (reconcileDiff p t g1 g2),
       m ++ (unionKeys g1 g2).filterMap (reconcileMatch p t g1 g2)) := by
  rw [step5]
  apply foldl_filterMap_factor
  intro k hk d' m'
  by_cases h2 : k ∈ groupKeys g2
  · by_cases h1 : k ∈ groupKeys g1
    · by_cases hc : (findGroup k g1).length = (findGroup k g2).length
      · simp [reconcileDiff, reconcileMatch, h1, h2, hc]
      · simp [reconcileDiff, reconcileMatch, h1, h2, hc]
    · simp [reconcileDiff, reconcileMatch, h1, h2]
  · simp [reconcileDiff, reconcileMatch, h2]

theorem length_findGroup_sibGroup (k : Sig) (cs : List Element) :
    (findGroup k (sibGroup cs)).length = countOcc k cs := by
  rw [findGroup_sibGroup, countOcc]

theorem mem_groupKeys_sibGroup_iff_countOcc (k : Sig) (cs : List Element) :
    k ∈ groupKeys (sibGroup cs) ↔ countOcc k cs ≠ 0 := by
  rw [mem_groupKeys_sibGroup, countOcc]
  rw [ne_eq, List.length_eq_zero]
  constructor
  · intro h
    rw [List.mem_map] at h
    obtain ⟨c, hc, hk⟩ := h
    intro hnil
    have : c ∈ cs.filter (fun c => decide (element_signature c = k)) := by
      rw [List.mem_filter]
      exact ⟨hc, by simp [hk]⟩
    rw [hnil] at this
    exact List.not_mem_nil c this
  · intro h
    rcases he : cs.filter (fun c => decide (element_signature c = k)) with _ | ⟨c, rest⟩
    · exact absurd he h
    · have : c ∈ cs.filter (fun c => decide (element_signature c = k)) := by
        rw [he]; exact List.mem_cons_self c rest
      rw [List.mem_filter] at this
      rw [List.mem_map]
      exact ⟨c, this.1, by simpa using this.2⟩

/-- The "new records" of one comparison call: what the call appends beyond
the logs it was handed. -/
def compareNew (e1 e2 : Element) (p : String) : List Rec × List Rec :=
  compare_elements_unordered e1 e2 [] [] p

theorem compare_append_aux :
    ∀ (n : Nat) (e1 : Element), sizeOf e1 ≤ n →
      ∀ (e2 : Element) (d m : List Rec) (p : String),
        compare_elements_unordered e1 e2 d m p =
          (d ++ (compareNew e1 e2 p).1, m ++ (compareNew e1 e2 p).2) := by
  intro n
  induction n with
  | zero =>
      intro e1 h
      obtain ⟨t, a, x, cs⟩ := e1
      simp only [Element.mk.sizeOf_spec] at h
      omega
  | succ n ih =>
      intro e1 hsz e2 d m p
      rw [compareNew, compare_unfold, compare_unfold e1 e2 [] []]
      by_cases ht : e1.tag ≠ e2.tag
      · simp [ht]
      · simp only [ht, ite_false, if_false]
        have hstep : ∀ x ∈ recursionPairs (sibGroup e1.children) (sibGroup e2.children),
            ∀ d' m',
              (fun dm (q : Element × Element) =>
                  compare_elements_unordered q.1 q.2 dm.1 dm.2 (p ++ "/" ++ e1.tag))
                (d', m') x =
                (d' ++ (compareNew x.1 x.2 (p ++ "/" ++ e1.tag)).1,
                 m' ++ (compareNew x.1 x.2 (p ++ "/" ++ e1.tag)).2) := by
          intro x hx d' m'
          obtain ⟨c1, c2⟩ := x
          have hc1 : c1 ∈ e1.children := fst_mem_of_mem_recursionPairs hx
          have hlt : sizeOf c1 < sizeOf e1.children := List.sizeOf_lt_of_mem hc1
          have hel := sizeOf_children_lt e1
          exact ih c1 (by omega) c2 d' m' (p ++ "/" ++ e1.tag)
        have hfold := foldl_pair_append
          (recursionPairs (sibGroup e1.children) (sibGroup e2.children))
          (fun dm (q : Element × Element) =>
            compare_elements_unordered q.1 q.2 dm.1 dm.2 (p ++ "/" ++ e1.tag))
          (fun q => (compareNew q.1 q.2 (p ++ "/" ++ e1.tag)).1)
          (fun q => (compareNew q.1 q.2 (p ++ "/" ++ e1.tag)).2)
          hstep
        by_cases ha : ¬ attribEq e1.attrib e2.attrib <;>
          simp only [ha, ite_true, if_pos, ite_false, if_neg, not_false_iff,
            not_true, if_true] <;>
          rw [step5_eq, step5_eq, hfold, hfold] <;>
          simp

/-- The comparator only ever appends to the two logs it is handed: its
result is the incoming logs followed by call-determined new records. -/
theorem compare_elements_append (e1 e2 : Element) (d m : List Rec) (p : String) :
    compare_elements_unordered e1 e2 d m p =
      (d ++ (compareNew e1 e2 p).1, m ++ (compareNew e1 e2 p).2) :=
  compare_append_aux (sizeOf e1) e1 le_rfl e2 d m p

/-- New records of a comparison whose tags differ. -/
theorem compareNew_tag_mismatch {e1 e2 : Element} (p : String)
    (h : e1.tag ≠ e2.tag) :
    compareNew e1 e2 p = ([Rec.differentTags p e1.tag e2.tag], []) := by
  rw [compareNew, compare_unfold]
  simp [h]

/-- Structure of the new records of a comparison whose tags agree: the
attribute record, then the reconciliation records, then the concatenated new
records of the recursive calls on the paired children. -/
theorem compareNew_struct (e1 e2 : Element) (p : String) (h : e1.tag = e2.tag) :
    compareNew e1 e2 p =
      ((if attribEq e1.attrib e2.attrib then []
          else [Rec.differentAttributes p e1.tag e1.attrib e2.attrib])
        ++ (unionKeys (sibGroup e1.children) (sibGroup e2.children)).filterMap
            (reconcileDiff p e1.tag (sibGroup e1.children) (sibGroup e2.children))
        ++ ((recursionPairs (sibGroup e1.children) (sibGroup e2.children)).map
            (fun q => (compareNew q.1 q.2 (p ++ "/" ++ e1.tag)).1)).flatten,
       [Rec.matchingTags p e1.tag]
        ++ (if attribEq e1.attrib e2.attrib then
              [Rec.matchingAttributes p e1.tag e1.attrib] else [])
        ++ (unionKeys (sibGroup e1.children) (sibGroup e2.children)).filterMap
            (reconcileMatch p e1.tag (sibGroup e1.children) (sibGroup e2.children))
        ++ ((recursionPairs (sibGroup e1.children) (sibGroup e2.children)).map
            (fun q => (compareNew q.1 q.2 (p ++ "/" ++ e1.tag)).2)).flatten) := by
  rw [compareNew, compare_unfold]
  have hstep : ∀ x ∈ recursionPairs (sibGroup e1.children) (sibGroup e2.children),
      ∀ d' m',
        (fun dm (q : Element × Element) =>
            compare_elements_unordered q.1 q.2 dm.1 dm.2 (p ++ "/" ++ e1.tag))
          (d', m') x =
          (d' ++ (compareNew x.1 x.2 (p ++ "/" ++ e1.tag)).1,
           m' ++ (compareNew x.1 x.2 (p ++ "/" ++ e1.tag)).2) := by
    intro x hx d' m'
    exact compare_elements_append x.1 x.2 d' m' (p ++ "/" ++ e1.tag)
  have hfold := foldl_pair_append
    (recursionPairs (sibGroup e1.children) (sibGroup e2.children))
    (fun dm (q : Element × Element) =>
      compare_elements_unordered q.1 q.2 dm.1 dm.2 (p ++ "/" ++ e1.tag))
    (fun q => (compareNew q.1 q.2 (p ++ "/" ++ e1.tag)).1)
    (fun q => (compareNew q.1 q.2 (p ++ "/" ++ e1.tag)).2)
    hstep
  rw [if_neg (not_not_intro h)]
  by_cases ha : attribEq e1.attrib e2.attrib
  · rw [if_neg (not_not_intro ha), if_pos ha, if_pos ha, step5_eq, hfold]
    simp
  · rw [if_pos ha, if_neg ha, if_neg ha, step5_eq, hfold]
    simp

theorem zip_self {α : Type} (l : List α) : l.zip l = l.map (fun a => (a, a)) := by
  induction l with
  | nil => rfl
  | cons a l ih => simp [List.zip_cons_cons, ih]

theorem flatten_map_eq_nil {α : Type} (l : List α) (f : α → List Rec)
    (h : ∀ x ∈ l, f x = []) : (l.map f).flatten = [] := by
  induction l with
  | nil => rfl
  | cons a l ih =>
      rw [List.map_cons, List.flatten_cons, h a (List.mem_cons_self a l),
        List.nil_append]
      exact ih (fun x hx => h x (List.mem_cons_of_mem a hx))

theorem attribEq_refl (a : List (String × String)) : attribEq a a := rfl

theorem unionKeys_self (g : SigGroup) : unionKeys g g = groupKeys g := by
  rw [unionKeys]
  have : (groupKeys g).filter (fun k => decide (k ∉ groupKeys g)) = [] := by
    rw [List.filter_eq_nil]
    intro k hk
    simp [hk]
  rw [this, List.append_nil]

theorem interKeys_self (g : SigGroup) : interKeys g g = groupKeys g := by
  rw [interKeys]
  apply List.filter_eq_self.mpr
  intro k hk
  simp [hk]

theorem mem_recursionPairs_self {x : Element × Element} {g : SigGroup}
    (h : x ∈ recursionPairs g g) : x.1 = x.2 := by
  rw [recursionPairs, List.mem_flatMap] at h
  obtain ⟨k, hk, hz⟩ := h
  rw [zip_self, List.mem_map] at hz
  obtain ⟨c, hc, hx⟩ := hz
  rw [← hx]

theorem compareNew_self_aux :
    ∀ (n : Nat) (e : Element), sizeOf e ≤ n → ∀ (p : String),
      (compareNew e e p).1 = [] := by
  intro n
  induction n with
  | zero =>
      intro e h
      obtain ⟨t, a, x, cs⟩ := e
      simp only [Element.mk.sizeOf_spec] at h
      omega
  | succ n ih =>
      intro e hsz p
      rw [compareNew_struct e e p rfl]
      rw [if_pos (attribEq_refl e.attrib)]
      have hrd : (unionKeys (sibGroup e.children) (sibGroup e.children)).filterMap
          (reconcileDiff p e.tag (sibGroup e.children) (sibGroup e.children)) = [] := by
        rw [List.filterMap_eq_nil]
        intro k hk
        rw [unionKeys_self] at hk
        rw [reconcileDiff, if_neg (not_not_intro hk), if_neg (not_not_intro hk),
          if_neg (by simp)]
      have hfl : ((recursionPairs (sibGroup e.children) (sibGroup e.children)).map
          (fun q => (compareNew q.1 q.2 (p ++ "/" ++ e.tag)).1)).flatten = [] := by
        apply flatten_map_eq_nil
        intro x hx
        have hd : x.1 = x.2 := mem_recursionPairs_self hx
        obtain ⟨c1, c2⟩ := x
        have hc1 : c1 ∈ e.children := fst_mem_of_mem_recursionPairs hx
        have hlt : sizeOf c1 < sizeOf e.children := List.sizeOf_lt_of_mem hc1
        have hel := sizeOf_children_lt e
        simp only at hd
        rw [← hd]
        exact ih c1 (by omega) (p ++ "/" ++ e.tag)
      simp [hrd, hfl]

/-- Comparing a node with itself contributes no difference records. -/
theorem compareNew_self_diff_nil (e : Element) (p : String) :
    (compareNew e e p).1 = [] :=
  compareNew_self_aux (sizeOf e) e le_rfl p

/-- Comparing a node with itself contributes at least the matching-tags
record. -/
theorem compareNew_self_matches_ne_nil (e : Element) (p : String) :
    (compareNew e e p).2 ≠ [] := by
  rw [compareNew_struct e e p rfl]
  simp

/-- `<a/>`. -/
def elemA : Element := Element.mk "a" [] none []

/-- `<b/>`. -/
def elemB : Element := Element.mk "b" [] none []

/-- `<c/>`. -/
def elemC : Element := Element.mk "c" [] none []

/-- `<p><c/><c/></p>`. -/
def parentCC : Element := Element.mk "p" [] none [elemC, elemC]

/-- `<p><c/></p>`. -/
def parentC : Element := Element.mk "p" [] none [elemC]

/-- C4: when the tags differ the comparator appends exactly one
different-tags record to the differences log, scoped to the current path,
leaves the matches log unchanged, and returns without inspecting attributes
or children. -/
theorem tag_mismatch_short_circuit (e1 e2 : Element) (d m : List Rec)
    (p : String) (h : e1.tag ≠ e2.tag) :
    compare_elements_unordered e1 e2 d m p =
      (d ++ [Rec.differentTags p e1.tag e2.tag], m) := by
  rw [compare_unfold]
  simp [h]

/-- C4 at `<a/>` versus `<b/>` with empty logs: exactly one difference and
zero matches. -/
theorem tag_mismatch_short_circuit_witness :
    compare_elements_unordered elemA elemB [] [] "/" =
      ([Rec.differentTags "/" "a" "b"], []) := by
  have h := tag_mismatch_short_circuit elemA elemB [] [] "/" (by decide)
  simpa using h

/-- C5: comparing any tree with itself from empty logs leaves the
differences log empty and the matches log non-empty. -/
theorem self_comparison_identity (e : Element) :
    (compare_elements_unordered e e [] [] "/").1 = [] ∧
    (compare_elements_unordered e e [] [] "/").2 ≠ [] :=
  ⟨compareNew_self_diff_nil e "/", compareNew_self_matches_ne_nil e "/"⟩

/-- C7: after both documents load, the reported outcome is `identical`
exactly when the differences log is empty and `different` exactly when it is
not; the matches log plays no role. -/
theorem outcome_classification (r1 r2 : Element) :
    ((compare_xml_files (some r1) (some r2)).1 = Outcome.identical ↔
      (compare_elements_unordered r1 r2 [] [] "/").1 = []) ∧
    ((compare_xml_files (some r1) (some r2)).1 = Outcome.different ↔
      (compare_elements_unordered r1 r2 [] [] "/").1 ≠ []) := by
  rw [compare_xml_files]
  by_cases h : (compare_elements_unordered r1 r2 [] [] "/").1 = []
  · simp [h, List.isEmpty_iff]
  · simp [h, List.isEmpty_iff]

/-- C8, counterexample to "no recursion into `<c/>`": comparing
`<p><c/><c/></p>` against `<p><c/></p>` does recurse into the paired
occurrence of `<c/>` — the matches log receives a matching-tags record at
the child path. -/
theorem count_mismatch_recursion_happens :
    Rec.matchingTags "//p" "c" ∈
      (compare_elements_unordered parentCC parentC [] [] "/").2 := by
  rw [compare_unfold]
  rw [show recursionPairs (sibGroup parentCC.children) (sibGroup parentC.children)
      = [(elemC, elemC)] from rfl]
  rw [List.foldl_cons, compare_unfold]
  decide

/-- C8 (amended): comparing `<p><c/><c/></p>` against `<p><c/></p>` yields
exactly one difference — the different-count record citing 2 versus 1 — and
the single paired occurrence of `<c/>` is recursed into, contributing only
match records; the surplus occurrence is not recursed into. -/
theorem count_mismatch_behaviour :
    compare_elements_unordered parentCC parentC [] [] "/" =
      ([Rec.differentCount (element_signature elemC) "/" "p" 2 1],
       [Rec.matchingTags "/" "p", Rec.matchingAttributes "/" "p" [],
        Rec.matchingTags "//p" "c", Rec.matchingAttributes "//p" "c" []]) := by
  rw [compare_unfold]
  rw [show recursionPairs (sibGroup parentCC.children) (sibGroup parentC.children)
      = [(elemC, elemC)] from rfl]
  rw [List.foldl_cons, compare_unfold]
  decide

/-- C9: the comparator never inspects the text of the two nodes it is called
on — replacing either root's text leaves the result unchanged — and hence
two trees differing only in root text compare with zero differences and are
reported identical. -/
theorem root_text_blindness (tag : String) (a : List (String × String))
    (x1 x2 : Option String) (cs : List Element) (e2 : Element)
    (d m : List Rec) (p : String) :
    (compare_elements_unordered (Element.mk tag a x1 cs) e2 d m p =
      compare_elements_unordered (Element.mk tag a x2 cs) e2 d m p) ∧
    (compare_elements_unordered e2 (Element.mk tag a x1 cs) d m p =
      compare_elements_unordered e2 (Element.mk tag a x2 cs) d m p) ∧
    (compare_elements_unordered (Element.mk tag a x1 cs)
        (Element.mk tag a x2 cs) [] [] "/").1 = [] ∧
    (compare_xml_files (some (Element.mk tag a x1 cs))
        (some (Element.mk tag a x2 cs))).1 = Outcome.identical := by
  have h1 : compare_elements_unordered (Element.mk tag a x1 cs) e2 d m p =
      compare_elements_unordered (Element.mk tag a x2 cs) e2 d m p := by
    rw [compare_unfold, compare_unfold]
    simp only [Element.tag, Element.attrib, Element.children]
  have h2 : compare_elements_unordered e2 (Element.mk tag a x1 cs) d m p =
      compare_elements_unordered e2 (Element.mk tag a x2 cs) d m p := by
    rw [compare_unfold, compare_unfold]
    simp only [Element.tag, Element.attrib, Element.children]
  have h3 : (compare_elements_unordered (Element.mk tag a x1 cs)
      (Element.mk tag a x2 cs) [] [] "/").1 = [] := by
    have he : compare_elements_unordered (Element.mk tag a x1 cs)
        (Element.mk tag a x2 cs) [] [] "/" =
        compare_elements_unordered (Element.mk tag a x1 cs)
          (Element.mk tag a x1 cs) [] [] "/" := by
      rw [compare_unfold, compare_unfold]
      simp only [Element.tag, Element.attrib, Element.children]
    rw [he]
    exact compareNew_self_diff_nil (Element.mk tag a x1 cs) "/"
  refine ⟨h1, h2, h3, ?_⟩
  rw [compare_xml_files]
  simp [h3, List.isEmpty_iff]

/-- Sorting is invariant under permutation of the input pairs. -/
theorem sortPairs_perm_eq {a b : List (String × String)} (h : a.Perm b) :
    sortPairs a = sortPairs b :=
  List.eq_of_perm_of_sorted
    ((List.perm_insertionSort pairLe a).trans
      (h.trans (List.perm_insertionSort pairLe b).symm))
    (List.sorted_insertionSort pairLe a)
    (List.sorted_insertionSort pairLe b)

/-- C6: the element signature is the triple (tag, sorted attribute pairs,
stripped text), and any two nodes with the same tag, the same attribute
mapping (a permutation of the same name-value pairs), and the same text
after stripping receive equal signatures. -/
theorem signature_determinism (e1 e2 : Element) (h1 : e1.tag = e2.tag)
    (h2 : e1.attrib.Perm e2.attrib)
    (h3 : stripText (e1.text.getD "") = stripText (e2.text.getD "")) :
    element_signature e1 = element_signature e2 ∧
    element_signature e1 =
      { tag := e1.tag, attrs := sortPairs e1.attrib
        text := stripText (e1.text.getD "") } := by
  constructor
  · unfold element_signature
    rw [h1, h3, sortPairs_perm_eq h2]
  · rfl

/-- C6 at two concrete nodes whose attributes were inserted in opposite
orders and whose texts differ only in surrounding whitespace. -/
theorem signature_determinism_witness :
    element_signature (Element.mk "a" [("x", "1"), ("y", "2")] (some " t ") []) =
      element_signature (Element.mk "a" [("y", "2"), ("x", "1")] (some "t") []) :=
  (signature_determinism
    (Element.mk "a" [("x", "1"), ("y", "2")] (some " t ") [])
    (Element.mk "a" [("y", "2"), ("x", "1")] (some "t") [])
    rfl (List.Perm.swap ("y", "2") ("x", "1") []) (by decide)).1

/-- Following the claim's classification for step 5: the difference record
for one signature key of the union, phrased through occurrence counts among
the direct children. -/
def specReconcileDiff (path tag : String) (cs1 cs2 : List Element) (k : Sig) :
    Option Rec :=
  if countOcc k cs2 = 0 then some (Rec.missingInSecond path tag k)
  else if countOcc k cs1 = 0 then some (Rec.missingInFirst path tag k)
  else if countOcc k cs1 ≠ countOcc k cs2 then
    some (Rec.differentCount k path tag (countOcc k cs1) (countOcc k cs2))
  else none

/-- Following the claim's classification for step 5: the match record for
one signature key occurring on both sides with equal counts. -/
def specReconcileMatch (path tag : String) (cs1 cs2 : List Element) (k : Sig) :
    Option Rec :=
  if countOcc k cs1 ≠ 0 ∧ countOcc k cs2 ≠ 0 ∧ countOcc k cs1 = countOcc k cs2
  then some (Rec.matchingElement k path tag (countOcc k cs1))
  else none

theorem not_mem_groupKeys_sibGroup_iff (k : Sig) (cs : List Element) :
    k ∉ groupKeys (sibGroup cs) ↔ countOcc k cs = 0 := by
  rw [mem_groupKeys_sibGroup_iff_countOcc]
  exact not_not

theorem reconcileDiff_eq_spec (p t : String) (cs1 cs2 : List Element) :
    reconcileDiff p t (sibGroup cs1) (sibGroup cs2) =
      specReconcileDiff p t cs1 cs2 := by
  funext k
  rw [reconcileDiff, specReconcileDiff]
  by_cases h2 : countOcc k cs2 = 0
  · rw [if_pos ((not_mem_groupKeys_sibGroup_iff k cs2).mpr h2), if_pos h2]
  · rw [if_neg (fun hn => h2 ((not_mem_groupKeys_sibGroup_iff k cs2).mp hn)),
      if_neg h2]
    by_cases h1 : countOcc k cs1 = 0
    · rw [if_pos ((not_mem_groupKeys_sibGroup_iff k cs1).mpr h1), if_pos h1]
    · rw [if_neg (fun hn => h1 ((not_mem_groupKeys_sibGroup_iff k cs1).mp hn)),
        if_neg h1, length_findGroup_sibGroup, length_findGroup_sibGroup]

theorem reconcileMatch_eq_spec (p t : String) (cs1 cs2 : List Element) :
    reconcileMatch p t (sibGroup cs1) (sibGroup cs2) =
      specReconcileMatch p t cs1 cs2 := by
  funext k
  rw [reconcileMatch, specReconcileMatch]
  by_cases h2 : countOcc k cs2 = 0
  · rw [if_pos ((not_mem_groupKeys_sibGroup_iff k cs2).mpr h2),
      if_neg (fun hc => hc.2.1 h2)]
  · rw [if_neg (fun hn => h2 ((not_mem_groupKeys_sibGroup_iff k cs2).mp hn))]
    by_cases h1 : countOcc k cs1 = 0
    · rw [if_pos ((not_mem_groupKeys_sibGroup_iff k cs1).mpr h1),
        if_neg (fun hc => hc.1 h1)]
    · rw [if_neg (fun hn => h1 ((not_mem_groupKeys_sibGroup_iff k cs1).mp hn)),
        length_findGroup_sibGroup, length_findGroup_sibGroup]
      by_cases hc : countOcc k cs1 = countOcc k cs2
      · rw [if_neg (fun hne => hne hc), if_pos ⟨h1, h2, hc⟩]
      · rw [if_pos hc, if_neg (fun hx => hc hx.2.2)]

theorem mem_unionKeys (g1 g2 : SigGroup) (k : Sig) :
    k ∈ unionKeys g1 g2 ↔ k ∈ groupKeys g1 ∨ k ∈ groupKeys g2 := by
  rw [unionKeys, List.mem_append, List.mem_filter]
  by_cases h : k ∈ groupKeys g1 <;> simp [h]

theorem unionKeys_nodup (g1 g2 : SigGroup) (h1 : (groupKeys g1).Nodup)
    (h2 : (groupKeys g2).Nodup) : (unionKeys g1 g2).Nodup := by
  rw [unionKeys, List.nodup_append]
  refine ⟨h1, h2.filter _, ?_⟩
  intro a ha hb
  rw [List.mem_filter] at hb
  simp only [decide_eq_true_eq] at hb
  exact hb.2 ha

theorem groupKeys_foldl_eq_of_map_eq :
    ∀ (cs cs' : List Element) (g g' : SigGroup),
      cs.map element_signature = cs'.map element_signature →
      groupKeys g = groupKeys g' →
      groupKeys (cs.foldl (fun g c => addChild g (element_signature c) c) g) =
        groupKeys (cs'.foldl (fun g c => addChild g (element_signature c) c) g') := by
  intro cs
  induction cs with
  | nil =>
      intro cs' g g' hm hg
      cases cs' with
      | nil => simpa using hg
      | cons c' cs'' => simp at hm
  | cons c cs ih =>
      intro cs' g g' hm hg
      cases cs' with
      | nil => simp at hm
      | cons c' cs'' =>
          simp only [List.map_cons, List.cons.injEq] at hm
          rw [List.foldl_cons, List.foldl_cons]
          apply ih cs'' _ _ hm.2
          rw [groupKeys_addChild, groupKeys_addChild, hg, hm.1]

/-- A signature's occurrence count among some children depends only on the
children's signature sequence. -/
theorem countOcc_eq_map (k : Sig) (cs : List Element) :
    countOcc k cs =
      ((cs.map element_signature).filter (fun s => decide (s = k))).length := by
  rw [countOcc, List.filter_map, List.length_map]
  rfl

theorem step5_sibGroup_eq_of_map_eq (p t : String)
    (cs1 cs2 cs1' cs2' : List Element) (d m : List Rec)
    (h1 : cs1.map element_signature = cs1'.map element_signature)
    (h2 : cs2.map element_signature = cs2'.map element_signature) :
    step5 p t (sibGroup cs1') (sibGroup cs2') (d, m) =
      step5 p t (sibGroup cs1) (sibGroup cs2) (d, m) := by
  have hk1 : groupKeys (sibGroup cs1') = groupKeys (sibGroup cs1) :=
    groupKeys_foldl_eq_of_map_eq cs1' cs1 [] [] h1.symm rfl
  have hk2 : groupKeys (sibGroup cs2') = groupKeys (sibGroup cs2) :=
    groupKeys_foldl_eq_of_map_eq cs2' cs2 [] [] h2.symm rfl
  have hu : unionKeys (sibGroup cs1') (sibGroup cs2') =
      unionKeys (sibGroup cs1) (sibGroup cs2) := by
    rw [unionKeys, unionKeys, hk1, hk2]
  have hd : specReconcileDiff p t cs1' cs2' = specReconcileDiff p t cs1 cs2 := by
    funext k
    have hc1 : countOcc k cs1' = countOcc k cs1 := by
      rw [countOcc_eq_map, countOcc_eq_map, h1]
    have hc2 : countOcc k cs2' = countOcc k cs2 := by
      rw [countOcc_eq_map, countOcc_eq_map, h2]
    rw [specReconcileDiff, specReconcileDiff, hc1, hc2]
  have hm' : specReconcileMatch p t cs1' cs2' = specReconcileMatch p t cs1 cs2 := by
    funext k
    have hc1 : countOcc k cs1' = countOcc k cs1 := by
      rw [countOcc_eq_map, countOcc_eq_map, h1]
    have hc2 : countOcc k cs2' = countOcc k cs2 := by
      rw [countOcc_eq_map, countOcc_eq_map, h2]
    rw [specReconcileMatch, specReconcileMatch, hc1, hc2]
  rw [step5_eq, step5_eq, reconcileDiff_eq_spec, reconcileDiff_eq_spec,
    reconcileMatch_eq_spec, reconcileMatch_eq_spec, hu, hd, hm']

/-- C2: step 5 emits, for every signature key in the union of the two
sibling groups, exactly one record, classified by occurrence counts exactly
as the claim states, and the emitted records depend only on the direct
children's signatures, never on grandchildren. -/
theorem set_level_reconciliation (p t : String) (cs1 cs2 : List Element)
    (d m : List Rec) :
    (step5 p t (sibGroup cs1) (sibGroup cs2) (d, m) =
      (d ++ (unionKeys (sibGroup cs1) (sibGroup cs2)).filterMap
          (specReconcileDiff p t cs1 cs2),
       m ++ (unionKeys (sibGroup cs1) (sibGroup cs2)).filterMap
          (specReconcileMatch p t cs1 cs2))) ∧
    (unionKeys (sibGroup cs1) (sibGroup cs2)).Nodup ∧
    (∀ k, k ∈ unionKeys (sibGroup cs1) (sibGroup cs2) ↔
      (countOcc k cs1 ≠ 0 ∨ countOcc k cs2 ≠ 0)) ∧
    (∀ k ∈ unionKeys (sibGroup cs1) (sibGroup cs2),
      ((specReconcileDiff p t cs1 cs2 k).isSome ∧
        specReconcileMatch p t cs1 cs2 k = none) ∨
      (specReconcileDiff p t cs1 cs2 k = none ∧
        (specReconcileMatch p t cs1 cs2 k).isSome)) ∧
    (∀ cs1' cs2', cs1.map element_signature = cs1'.map element_signature →
      cs2.map element_signature = cs2'.map element_signature →
      step5 p t (sibGroup cs1') (sibGroup cs2') (d, m) =
        step5 p t (sibGroup cs1) (sibGroup cs2) (d, m)) := by
  refine ⟨?_, ?_, ?_, ?_, ?_⟩
  · rw [step5_eq, reconcileDiff_eq_spec, reconcileMatch_eq_spec]
  · exact unionKeys_nodup _ _ (nodup_groupKeys_sibGroup cs1)
      (nodup_groupKeys_sibGroup cs2)
  · intro k
    rw [mem_unionKeys, mem_groupKeys_sibGroup_iff_countOcc,
      mem_groupKeys_sibGroup_iff_countOcc]
  · intro k hk
    by_cases h2 : countOcc k cs2 = 0
    · left
      constructor
      · simp [specReconcileDiff, h2]
      · simp [specReconcileMatch, h2]
    · by_cases h1 : countOcc k cs1 = 0
      · left
        constructor
        · simp [specReconcileDiff, h1, h2]
        · simp [specReconcileMatch, h1]
      · by_cases hc : countOcc k cs1 = countOcc k cs2
        · right
          constructor
          · simp [specReconcileDiff, h1, h2, hc]
          · simp [specReconcileMatch, h1, h2, hc]
        · left
          constructor
          · simp [specReconcileDiff, h1, h2, hc]
          · simp [specReconcileMatch, h1, h2, hc]
  · intro cs1' cs2' h1 h2
    exact step5_sibGroup_eq_of_map_eq p t cs1 cs2 cs1' cs2' d m h1 h2

/-- C2 at a concrete pair of sibling lists: `[<c/>, <c/>]` against `[<c/>]`
produces exactly the different-count record for the shared signature. -/
theorem set_level_reconciliation_witness :
    step5 "/" "p" (sibGroup [elemC, elemC]) (sibGroup [elemC]) ([], []) =
      ([Rec.differentCount (element_signature elemC) "/" "p" 2 1], []) := by
  have h := set_level_reconciliation "/" "p" [elemC, elemC] [elemC] [] []
  rw [h.1]
  decide

theorem mem_interKeys (g1 g2 : SigGroup) (k : Sig) :
    k ∈ interKeys g1 g2 ↔ k ∈ groupKeys g1 ∧ k ∈ groupKeys g2 := by
  rw [interKeys, List.mem_filter]
  simp

/-- C3: the recursion of step 6 runs exactly over the signature keys present
in both sibling groups, pairing the two signature-filtered child lists
positionally up to the shared minimum count, and the comparison of a pair of
nodes with equal tags consists of the tag/attribute/reconciliation records
followed by exactly the recursive comparisons of those pairs at the path
extended by the current tag. -/
theorem recursive_descent (e1 e2 : Element) (p : String)
    (h : e1.tag = e2.tag) :
    (recursionPairs (sibGroup e1.children) (sibGroup e2.children) =
      (interKeys (sibGroup e1.children) (sibGroup e2.children)).flatMap
        (fun k =>
          (e1.children.filter (fun c => decide (element_signature c = k))).zip
            (e2.children.filter (fun c => decide (element_signature c = k))))) ∧
    (∀ k, k ∈ interKeys (sibGroup e1.children) (sibGroup e2.children) ↔
      (countOcc k e1.children ≠ 0 ∧ countOcc k e2.children ≠ 0)) ∧
    (∀ k,
      ((e1.children.filter (fun c => decide (element_signature c = k))).zip
        (e2.children.filter (fun c => decide (element_signature c = k)))).length =
      min (countOcc k e1.children) (countOcc k e2.children)) ∧
    (∀ (k : Sig) (i : Nat) (c1 c2 : Element),
      ((e1.children.filter (fun c => decide (element_signature c = k))).zip
        (e2.children.filter (fun c => decide (element_signature c = k))))[i]? =
          some (c1, c2) ↔
      ((e1.children.filter (fun c => decide (element_signature c = k)))[i]? =
          some c1 ∧
        (e2.children.filter (fun c => decide (element_signature c = k)))[i]? =
          some c2)) ∧
    (compareNew e1 e2 p =
      ((if attribEq e1.attrib e2.attrib then []
          else [Rec.differentAttributes p e1.tag e1.attrib e2.attrib])
        ++ (unionKeys (sibGroup e1.children) (sibGroup e2.children)).filterMap
            (reconcileDiff p e1.tag (sibGroup e1.children) (sibGroup e2.children))
        ++ ((recursionPairs (sibGroup e1.children) (sibGroup e2.children)).map
            (fun q => (compareNew q.1 q.2 (p ++ "/" ++ e1.tag)).1)).flatten,
       [Rec.matchingTags p e1.tag]
        ++ (if attribEq e1.attrib e2.attrib then
              [Rec.matchingAttributes p e1.tag e1.attrib] else [])
        ++ (unionKeys (sibGroup e1.children) (sibGroup e2.children)).filterMap
            (reconcileMatch p e1.tag (sibGroup e1.children) (sibGroup e2.children))
        ++ ((recursionPairs (sibGroup e1.children) (sibGroup e2.children)).map
            (fun q => (compareNew q.1 q.2 (p ++ "/" ++ e1.tag)).2)).flatten)) := by
  refine ⟨?_, ?_, ?_, ?_, compareNew_struct e1 e2 p h⟩
  · rw [recursionPairs]
    simp only [findGroup_sibGroup]
  · intro k
    rw [mem_interKeys, mem_groupKeys_sibGroup_iff_countOcc,
      mem_groupKeys_sibGroup_iff_countOcc]
  · intro k
    rw [List.length_zip, countOcc, countOcc]
  · intro k i c1 c2
    exact List.getElem?_zip_eq_some

/-- C3 at `<p><c/><c/></p>` versus `<p><c/></p>`: the recursion pairs are
exactly the single positional pair of the two first `<c/>` children. -/
theorem recursive_descent_witness :
    recursionPairs (sibGroup parentCC.children) (sibGroup parentC.children) =
      (interKeys (sibGroup parentCC.children) (sibGroup parentC.children)).flatMap
        (fun k =>
          (parentCC.children.filter (fun c => decide (element_signature c = k))).zip
            (parentC.children.filter (fun c => decide (element_signature c = k)))) :=
  (recursive_descent parentCC parentC "/" rfl).1

/-- `T'` arises from `T` by permuting the direct children of exactly one
node (one level of siblings), everything else unchanged. -/
inductive PermOne : Element → Element → Prop
  | here (tag : String) (attrib : List (String × String)) (text : Option String)
      (cs cs' : List Element) (h : cs.Perm cs') :
      PermOne (Element.mk tag attrib text cs) (Element.mk tag attrib text cs')
  | deeper (tag : String) (attrib : List (String × String)) (text : Option String)
      (pre post : List Element) (c c' : Element) (h : PermOne c c') :
      PermOne (Element.mk tag attrib text (pre ++ c :: post))
              (Element.mk tag attrib text (pre ++ c' :: post))

/-- `T'` arises from `T` by permuting the direct children of exactly one
node in a way that keeps the relative order of children sharing a
signature. -/
inductive PermOneStable : Element → Element → Prop
  | here (tag : String) (attrib : List (String × String)) (text : Option String)
      (cs cs' : List Element) (h : cs.Perm cs')
      (hs : ∀ k : Sig,
        cs'.filter (fun c => decide (element_signature c = k)) =
          cs.filter (fun c => decide (element_signature c = k))) :
      PermOneStable (Element.mk tag attrib text cs) (Element.mk tag attrib text cs')
  | deeper (tag : String) (attrib : List (String × String)) (text : Option String)
      (pre post : List Element) (c c' : Element) (h : PermOneStable c c') :
      PermOneStable (Element.mk tag attrib text (pre ++ c :: post))
                    (Element.mk tag attrib text (pre ++ c' :: post))

theorem permOneStable_sig {c c' : Element} (h : PermOneStable c c') :
    element_signature c = element_signature c' := by
  cases h <;> rfl

/-- Sufficient conditions for a comparison to contribute no difference
records: equal tags, equal attribute mappings, equal per-signature
occurrence counts, and difference-free recursive comparisons. -/
theorem compareNew_diff_nil_of (e1 e2 : Element) (p : String)
    (htag : e1.tag = e2.tag) (hattr : attribEq e1.attrib e2.attrib)
    (hcnt : ∀ k, countOcc k e1.children = countOcc k e2.children)
    (hrec : ∀ q ∈ recursionPairs (sibGroup e1.children) (sibGroup e2.children),
      (compareNew q.1 q.2 (p ++ "/" ++ e1.tag)).1 = []) :
    (compareNew e1 e2 p).1 = [] := by
  rw [compareNew_struct e1 e2 p htag, if_pos hattr]
  have hrd : (unionKeys (sibGroup e1.children) (sibGroup e2.children)).filterMap
      (reconcileDiff p e1.tag (sibGroup e1.children) (sibGroup e2.children)) = [] := by
    rw [List.filterMap_eq_nil]
    intro k hk
    rw [reconcileDiff_eq_spec, specReconcileDiff]
    have hin := (mem_unionKeys _ _ k).mp hk
    have hboth : countOcc k e1.children ≠ 0 ∧ countOcc k e2.children ≠ 0 := by
      rcases hin with hm | hm
      · have h1 := (mem_groupKeys_sibGroup_iff_countOcc k _).mp hm
        exact ⟨h1, hcnt k ▸ h1⟩
      · have h2 := (mem_groupKeys_sibGroup_iff_countOcc k _).mp hm
        exact ⟨(hcnt k).symm ▸ h2, h2⟩
    rw [if_neg hboth.2, if_neg hboth.1, if_neg (fun hne => hne (hcnt k))]
  have hfl : ((recursionPairs (sibGroup e1.children) (sibGroup e2.children)).map
      (fun q => (compareNew q.1 q.2 (p ++ "/" ++ e1.tag)).1)).flatten = [] :=
    flatten_map_eq_nil _ _ hrec
  simp [hrd, hfl]

theorem permOneStable_diff_nil : ∀ (T T' : Element), PermOneStable T T' →
    ∀ (p : String), (compareNew T T' p).1 = [] := by
  intro T T' h
  induction h with
  | here tag attrib text cs cs' hperm hs =>
      intro p
      apply compareNew_diff_nil_of
      · rfl
      · exact attribEq_refl attrib
      · intro k
        simp only [Element.children]
        rw [countOcc, countOcc, hs k]
      · intro q hq
        simp only [Element.children] at hq
        rw [recursionPairs, List.mem_flatMap] at hq
        obtain ⟨k, hk, hz⟩ := hq
        rw [findGroup_sibGroup, findGroup_sibGroup, hs k, zip_self,
          List.mem_map] at hz
        obtain ⟨c, hc, hqc⟩ := hz
        rw [← hqc]
        exact compareNew_self_diff_nil c _
  | deeper tag attrib text pre post c c' hcc ih =>
      intro p
      have hsig : element_signature c' = element_signature c :=
        (permOneStable_sig hcc).symm
      apply compareNew_diff_nil_of
      · rfl
      · exact attribEq_refl attrib
      · intro k
        simp only [Element.children]
        simp only [countOcc, List.filter_append, List.filter_cons, hsig]
        by_cases hck : element_signature c = k <;> simp [hck]
      · intro q hq
        simp only [Element.children] at hq
        rw [recursionPairs, List.mem_flatMap] at hq
        obtain ⟨k, hk, hz⟩ := hq
        rw [findGroup_sibGroup, findGroup_sibGroup, List.filter_append,
          List.filter_append, List.filter_cons, List.filter_cons, hsig] at hz
        by_cases hck : decide (element_signature c = k) = true
        · rw [if_pos hck, if_pos hck] at hz
          rw [List.zip_append rfl] at hz
          rw [List.mem_append] at hz
          rcases hz with hz | hz
          · rw [zip_self, List.mem_map] at hz
            obtain ⟨a, ha, hqa⟩ := hz
            rw [← hqa]
            exact compareNew_self_diff_nil a _
          · rw [List.zip_cons_cons, List.mem_cons] at hz
            rcases hz with hz | hz
            · rw [hz]
              exact ih _
            · rw [zip_self, List.mem_map] at hz
              obtain ⟨a, ha, hqa⟩ := hz
              rw [← hqa]
              exact compareNew_self_diff_nil a _
        · rw [if_neg hck, if_neg hck] at hz
          rw [zip_self, List.mem_map] at hz
          obtain ⟨a, ha, hqa⟩ := hz
          rw [← hqa]
          exact compareNew_self_diff_nil a _

/-- `<c><d/></c>`. -/
def elemCD : Element := Element.mk "c" [] none [Element.mk "d" [] none []]

/-- `<c><e/></c>`: same signature as `elemCD` (signatures ignore children)
but a different subtree. -/
def elemCE : Element := Element.mk "c" [] none [Element.mk "e" [] none []]

/-- `<p><c><d/></c><c><e/></c></p>`. -/
def permEx1 : Element := Element.mk "p" [] none [elemCD, elemCE]

/-- `permEx1` with its two (same-signature) children swapped. -/
def permEx2 : Element := Element.mk "p" [] none [elemCE, elemCD]

/-- C1, counterexample: swapping one level of siblings that share a
signature but carry different subtrees makes the positional `zip` pairing
compare `<c><d/></c>` against `<c><e/></c>`, so the differences log is not
empty. -/
theorem order_insensitivity_fails :
    PermOne permEx1 permEx2 ∧
    (compare_elements_unordered permEx1 permEx2 [] [] "/").1 ≠ [] := by
  constructor
  · exact PermOne.here "p" [] none [elemCD, elemCE] [elemCE, elemCD]
      (List.Perm.swap elemCE elemCD [])
  · rw [compare_unfold]
    rw [show recursionPairs (sibGroup permEx1.children) (sibGroup permEx2.children)
        = [(elemCD, elemCE), (elemCE, elemCD)] from rfl]
    simp only [List.foldl_cons, List.foldl_nil]
    rw [compare_unfold elemCD elemCE, compare_unfold elemCE elemCD]
    decide

/-- C1 (amended): comparing a tree against a copy of itself with one level
of siblings permuted yields an empty differences log, provided the
permutation preserves the relative order of siblings sharing a signature. -/
theorem order_insensitivity (T T' : Element) (h : PermOneStable T T') :
    (compare_elements_unordered T T' [] [] "/").1 = [] :=
  permOneStable_diff_nil T T' h "/"

/-- C1 (amended) at a concrete tree: swapping two distinct-signature
siblings `<a/>` and `<b/>` yields no differences. -/
theorem order_insensitivity_witness :
    (compare_elements_unordered (Element.mk "p" [] none [elemA, elemB])
        (Element.mk "p" [] none [elemB, elemA]) [] [] "/").1 = [] := by
  apply order_insensitivity
  refine PermOneStable.here "p" [] none [elemA, elemB] [elemB, elemA]
    (List.Perm.swap elemB elemA []) ?_
  intro k
  by_cases ha : element_signature elemA = k
  · by_cases hb : element_signature elemB = k
    · exfalso
      have hne : element_signature elemA ≠ element_signature elemB := by decide
      exact hne (ha.trans hb.symm)
    · simp [List.filter_cons, ha, hb]
  · by_cases hb : element_signature elemB = k
    · simp [List.filter_cons, ha, hb]
    · simp [List.filter_cons, ha, hb]

/-- Exchanging the roles of the two files in a difference record: the two
missing-element messages swap, cited tag/attribute/count values swap; match
records are untouched. -/
def swapDiff : Rec → Rec
  | Rec.differentTags p t1 t2 => Rec.differentTags p t2 t1
  | Rec.differentAttributes p t a1 a2 => Rec.differentAttributes p t a2 a1
  | Rec.missingInSecond p t k => Rec.missingInFirst p t k
  | Rec.missingInFirst p t k => Rec.missingInSecond p t k
  | Rec.differentCount k p t c1 c2 => Rec.differentCount k p t c2 c1
  | r => r

theorem unionKeys_swap_perm (g1 g2 : SigGroup) (h1 : (groupKeys g1).Nodup)
    (h2 : (groupKeys g2).Nodup) : (unionKeys g2 g1).Perm (unionKeys g1 g2) := by
  rw [List.perm_ext_iff_of_nodup (unionKeys_nodup g2 g1 h2 h1)
    (unionKeys_nodup g1 g2 h1 h2)]
  intro a
  rw [mem_unionKeys, mem_unionKeys]
  exact or_comm

theorem interKeys_nodup (g1 g2 : SigGroup) (h1 : (groupKeys g1).Nodup) :
    (interKeys g1 g2).Nodup := h1.filter _

theorem interKeys_swap_perm (g1 g2 : SigGroup) (h1 : (groupKeys g1).Nodup)
    (h2 : (groupKeys g2).Nodup) : (interKeys g2 g1).Perm (interKeys g1 g2) := by
  rw [List.perm_ext_iff_of_nodup (interKeys_nodup g2 g1 h2)
    (interKeys_nodup g1 g2 h1)]
  intro a
  rw [mem_interKeys, mem_interKeys]
  exact and_comm

theorem reconcileDiff_swap (p t : String) (g1 g2 : SigGroup) (k : Sig)
    (hk : k ∈ groupKeys g1 ∨ k ∈ groupKeys g2) :
    reconcileDiff p t g2 g1 k = (reconcileDiff p t g1 g2 k).map swapDiff := by
  rw [reconcileDiff, reconcileDiff]
  by_cases h1 : k ∈ groupKeys g1
  · by_cases h2 : k ∈ groupKeys g2
    · rw [if_neg (not_not_intro h1), if_neg (not_not_intro h2),
        if_neg (not_not_intro h2), if_neg (not_not_intro h1)]
      by_cases hc : (findGroup k g1).length = (findGroup k g2).length
      · rw [if_neg (fun hne => hne hc.symm), if_neg (fun hne => hne hc)]
        rfl
      · rw [if_pos (fun heq => hc heq.symm), if_pos hc]
        rfl
    · rw [if_neg (not_not_intro h1), if_pos h2, if_pos h2]
      rfl
  · have h2 : k ∈ groupKeys g2 := hk.resolve_left h1
    rw [if_pos h1, if_neg (not_not_intro h2), if_pos h1]
    rfl

theorem flatten_map_eq_flatMap {α β : Type} (l : List α) (f : α → List β) :
    (l.map f).flatten = l.flatMap f := by
  rw [List.flatMap_def]

theorem attribEq_symm {a b : List (String × String)} (h : attribEq a b) :
    attribEq b a := Eq.symm h

theorem swap_diff_perm_aux :
    ∀ (n : Nat) (e1 : Element), sizeOf e1 ≤ n →
      ∀ (e2 : Element) (p : String),
        ((compareNew e2 e1 p).1).Perm
          (((compareNew e1 e2 p).1).map swapDiff) := by
  intro n
  induction n with
  | zero =>
      intro e1 h
      obtain ⟨t, a, x, cs⟩ := e1
      simp only [Element.mk.sizeOf_spec] at h
      omega
  | succ n ih =>
      intro e1 hsz e2 p
      by_cases ht : e1.tag = e2.tag
      · rw [compareNew_struct e2 e1 p ht.symm, compareNew_struct e1 e2 p ht]
        simp only
        rw [← ht]
        simp only [List.map_append]
        refine List.Perm.append (List.Perm.append ?_ ?_) ?_
        · by_cases hA : attribEq e1.attrib e2.attrib
          · rw [if_pos hA, if_pos (attribEq_symm hA)]
            simp
          · rw [if_neg hA, if_neg (fun hx => hA (attribEq_symm hx))]
            simp [swapDiff]
        · have hklA := nodup_groupKeys_sibGroup e1.children
          have hklB := nodup_groupKeys_sibGroup e2.children
          have hu := unionKeys_swap_perm (sibGroup e1.children)
            (sibGroup e2.children) hklA hklB
          have step1 := hu.filterMap
            (reconcileDiff p e1.tag (sibGroup e2.children) (sibGroup e1.children))
          have step2 : (unionKeys (sibGroup e1.children) (sibGroup e2.children)).filterMap
              (reconcileDiff p e1.tag (sibGroup e2.children) (sibGroup e1.children)) =
              (unionKeys (sibGroup e1.children) (sibGroup e2.children)).filterMap
                (fun k => (reconcileDiff p e1.tag (sibGroup e1.children)
                  (sibGroup e2.children) k).map swapDiff) :=
            List.filterMap_congr (fun k hk =>
              reconcileDiff_swap p e1.tag _ _ k ((mem_unionKeys _ _ k).mp hk))
          rw [step2] at step1
          rw [List.map_filterMap]
          exact step1
        · have hklA := nodup_groupKeys_sibGroup e1.children
          have hklB := nodup_groupKeys_sibGroup e2.children
          rw [flatten_map_eq_flatMap, flatten_map_eq_flatMap, List.map_flatMap]
          rw [recursionPairs, recursionPairs, List.flatMap_assoc, List.flatMap_assoc]
          have hfun : (fun k => (List.zip
                (findGroup k (sibGroup e2.children))
                (findGroup k (sibGroup e1.children))).flatMap
                  (fun q => (compareNew q.1 q.2 (p ++ "/" ++ e1.tag)).1))
              = (fun k => (List.zip
                (findGroup k (sibGroup e1.children))
                (findGroup k (sibGroup e2.children))).flatMap
                  (fun q => (compareNew q.2 q.1 (p ++ "/" ++ e1.tag)).1)) := by
            funext k
            rw [← List.zip_swap (findGroup k (sibGroup e1.children))
              (findGroup k (sibGroup e2.children)), List.flatMap_map]
            simp only [Prod.fst_swap, Prod.snd_swap]
          rw [hfun]
          have step1 := (interKeys_swap_perm (sibGroup e1.children)
              (sibGroup e2.children) hklA hklB).flatMap_right
            (fun k => (List.zip
              (findGroup k (sibGroup e1.children))
              (findGroup k (sibGroup e2.children))).flatMap
                (fun q => (compareNew q.2 q.1 (p ++ "/" ++ e1.tag)).1))
          refine step1.trans ?_
          apply List.Perm.flatMap_left
          intro k hk
          apply List.Perm.flatMap_left
          intro q hq
          obtain ⟨c1, c2⟩ := q
          have hc1 : c1 ∈ e1.children := by
            have hm := (List.of_mem_zip hq).1
            rw [findGroup_sibGroup] at hm
            exact List.mem_of_mem_filter hm
          have hlt : sizeOf c1 < sizeOf e1.children := List.sizeOf_lt_of_mem hc1
          have hel := sizeOf_children_lt e1
          exact ih c1 (by omega) c2 (p ++ "/" ++ e1.tag)
      · have ht2 : e2.tag ≠ e1.tag := fun hx => ht hx.symm
        rw [compareNew_tag_mismatch p ht2, compareNew_tag_mismatch p ht]
        simp [swapDiff]

/-- C10: swapping the two arguments permutes the difference records through
`swapDiff` — the two missing-element categories exchanged and the two cited
counts swapped — so the two runs append the same number of difference
records and one differences log is empty exactly when the other is.
(Record order may differ: the source iterates Python set views, whose order
is unspecified.) -/
theorem symmetry_under_swap (eA eB : Element) (p : String) :
    ((compare_elements_unordered eB eA [] [] p).1).Perm
      (((compare_elements_unordered eA eB [] [] p).1).map swapDiff) ∧
    (compare_elements_unordered eB eA [] [] p).1.length =
      (compare_elements_unordered eA eB [] [] p).1.length ∧
    ((compare_elements_unordered eA eB [] [] p).1 = [] ↔
      (compare_elements_unordered eB eA [] [] p).1 = []) := by
  have h := swap_diff_perm_aux (sizeOf eA) eA le_rfl eB p
  have hlen : (compare_elements_unordered eB eA [] [] p).1.length =
      (compare_elements_unordered eA eB [] [] p).1.length := by
    have := h.length_eq
    simpa using this
  refine ⟨h, hlen, ?_⟩
  rw [← List.length_eq_zero, ← List.length_eq_zero, hlen]

/-- C5 at the concrete tree `<a/>`. -/
theorem self_comparison_identity_witness :
    (compare_elements_unordered elemA elemA [] [] "/").1 = [] ∧
    (compare_elements_unordered elemA elemA [] [] "/").2 ≠ [] :=
  self_comparison_identity elemA

/-- C7 at a concrete pair of loaded roots. -/
theorem outcome_classification_witness :
    ((compare_xml_files (some elemA) (some elemA)).1 = Outcome.identical ↔
      (compare_elements_unordered elemA elemA [] [] "/").1 = []) ∧
    ((compare_xml_files (some elemA) (some elemA)).1 = Outcome.different ↔
      (compare_elements_unordered elemA elemA [] [] "/").1 ≠ []) :=
  outcome_classification elemA elemA

/-- C9 at concrete roots differing only in text. -/
theorem root_text_blindness_witness :
    (compare_elements_unordered (Element.mk "a" [] (some "x") [])
        elemB [] [] "/" =
      compare_elements_unordered (Element.mk "a" [] (some "y") []) elemB [] [] "/") ∧
    (compare_elements_unordered elemB (Element.mk "a" [] (some "x") []) [] [] "/" =
      compare_elements_unordered elemB (Element.mk "a" [] (some "y") []) [] [] "/") ∧
    (compare_elements_unordered (Element.mk "a" [] (some "x") [])
        (Element.mk "a" [] (some "y") []) [] [] "/").1 = [] ∧
    (compare_xml_files (some (Element.mk "a" [] (some "x") []))
        (some (Element.mk "a" [] (some "y") []))).1 = Outcome.identical :=
  root_text_blindness "a" [] (some "x") (some "y") [] elemB [] [] "/"

/-- C10 at the concrete pair `<a/>`, `<b/>`. -/
theorem symmetry_under_swap_witness :
    ((compare_elements_unordered elemB elemA [] [] "/").1).Perm
      (((compare_elements_unordered elemA elemB [] [] "/").1).map swapDiff) ∧
    (compare_elements_unordered elemB elemA [] [] "/").1.length =
      (compare_elements_unordered elemA elemB [] [] "/").1.length ∧
    ((compare_elements_unordered elemA elemB [] [] "/").1 = [] ↔
      (compare_elements_unordered elemB elemA [] [] "/").1 = []) :=
  symmetry_under_swap elemA elemB "/"
